import Mathlib

/-!
Verification of the duplicate-files finder (`duplicate_files_finder.py`).

The filesystem is modelled as a total map from paths to file metadata:
file-type bits (`mode`), symlink flag, byte content, modification time,
and two success flags — `statOk` (an `os.stat` / `os.path.getsize` call on
the path succeeds) and `readOk` (opening and reading the file's bytes
succeeds).  For a regular file `st_size` equals the length of the content,
so sizes are taken from `content.length`.  Fallible operations return
`Except Unit` (the error being `OSError`).  `hashlib.md5` is external to
the repository; it is idealised as a collision-free digest of the byte
content (`md5hex`), which the spec explicitly allows ("any
collision-resistant whole-file hash is acceptable for the abstract
contract").
-/

/-- A file path (Python `str`). -/
abbrev FPath := String

/-- Metadata and content of one filesystem entry. -/
structure FileInfo where
  /-- `st_mode` bits of the entry. -/
  mode : Nat
  /-- `os.path.islink` answer for the path. -/
  isLink : Bool
  /-- The byte content of the file. -/
  content : List Nat
  /-- `st_mtime` of the entry. -/
  mtime : Nat
  /-- Whether `os.stat` / `os.path.getsize` on the path succeeds. -/
  statOk : Bool
  /-- Whether opening the file and reading its bytes succeeds. -/
  readOk : Bool
deriving DecidableEq

/-- A fixed filesystem state. -/
abbrev FS := FPath → FileInfo

/-- `stat.S_IFREG`: the regular-file type bits (0o100000). -/
def S_IFREG : Nat := 32768

/-- `stat.S_IFMT(mode)`: mask out the file-type bits (0o170000). -/
def S_IFMT (mode : Nat) : Nat := mode &&& 61440

/-- `BUFSIZE = 8 * 1024`, the chunk size of the buffered comparison. -/
def BUFSIZE : Nat := 8 * 1024

/-- `scan_files(path)`: `os.walk` is an external collaborator, so the flat
list of walked file paths is a parameter; `scan_files` keeps those that are
not symbolic links (line 42: `filter(lambda x: not islink(x), ...)`). -/
def scan_files (fs : FS) (walked : List FPath) : List FPath :=
  walked.filter (fun p => !(fs p).isLink)

/-- `os.path.getsize`: the byte size of a regular file is its content
length; a failing stat raises `OSError`. -/
def getsize (fs : FS) (p : FPath) : Except Unit Nat :=
  if (fs p).statOk then .ok (fs p).content.length else .error ()

/-- The idealised `md5(...).hexdigest()`: a collision-free digest of the
byte content (the spec treats the digest algorithm as an abstract
collision-resistant whole-file hash).  A real hexdigest is a nonempty
32-character string, hence always truthy in Python. -/
def md5hex (content : List Nat) : List Nat := content

/-- `get_file_checksum(file_path)` (lines 68-74): read the whole file and
digest it; on `OSError` return `None`. -/
def get_file_checksum (fs : FS) (p : FPath) : Option (List Nat) :=
  if (fs p).readOk then some (md5hex (fs p).content) else none

/-- The stat signature `_sig(st)` of `compare_files` (lines 123-125):
`(S_IFMT(st.st_mode), st.st_size, st.st_mtime)`. -/
def statSig (fs : FS) (p : FPath) : Except Unit (Nat × Nat × Nat) :=
  if (fs p).statOk then
    .ok (S_IFMT (fs p).mode, (fs p).content.length, (fs p).mtime)
  else .error ()

/-- The chunked lockstep comparison loop of `_do_compare` (lines 132-138),
with explicit fuel so that it is structurally recursive: read `BUFSIZE`
bytes from each file; unequal chunks mean unequal files; an empty first
chunk means both streams ended with all chunks equal.  Every productive
iteration consumes at least one byte of `c1`, so `c1.length + 1` rounds of
fuel always reach the loop's own exit (`chunkCompare` below passes that
much and the exhaustion branch is proved unreachable in
`chunkCompare_iff`). -/
def chunkLoop : Nat → List Nat → List Nat → Bool
  | 0, _, _ => false
  | fuel + 1, c1, c2 =>
      if c1.take BUFSIZE ≠ c2.take BUFSIZE then false
      else if c1.take BUFSIZE = [] then true
      else chunkLoop fuel (c1.drop BUFSIZE) (c2.drop BUFSIZE)

/-- The `while True:` comparison loop of `_do_compare`, entered with
enough fuel for its buffered reads to reach end-of-stream. -/
def chunkCompare (c1 c2 : List Nat) : Bool :=
  chunkLoop (c1.length + 1) c1 c2

/-- `_do_compare(file1, file2)` (lines 127-140): the whole loop is wrapped
in `try ... except OSError: return False`, so any read failure on either
file yields `False`; when both files read successfully the chunk loop
decides. -/
def do_compare (fs : FS) (f1 f2 : FPath) : Bool :=
  if (fs f1).readOk && (fs f2).readOk then
    chunkCompare (fs f1).content (fs f2).content
  else false

/-- `compare_files(f1, f2, shallow=True)` (lines 113-151).  The two
`stat` calls are outside any handler, so a failing stat propagates
`OSError` (modelled as `.error ()`). -/
def compare_files (fs : FS) (f1 f2 : FPath) (shallow : Bool := true) :
    Except Unit Bool := do
  let s1 ← statSig fs f1
  let s2 ← statSig fs f2
  if s1.1 ≠ S_IFREG ∨ s2.1 ≠ S_IFREG then pure false
  else if shallow = true ∧ s1 = s2 then pure true
  else if s1.2.1 ≠ s2.2.1 then pure false
  else pure (do_compare fs f1 f2)

/-- `groups.setdefault(key, []).append(p)` on an insertion-ordered dict,
modelled as an association list: append `p` to the existing bucket for
`key`, or add a new bucket at the end. -/
def keyInsert {α : Type} [DecidableEq α] (k : α) (p : FPath) :
    List (α × List FPath) → List (α × List FPath)
  | [] => [(k, [p])]
  | (k0, g) :: rest =>
      if k0 = k then (k0, g ++ [p]) :: rest
      else (k0, g) :: keyInsert k p rest

/-- The accumulation loop shared by `group_files_by_size` (lines 59-62)
and `group_files_by_checksum` (lines 85-88): for each path compute a key
(`.ok none` means the path is skipped, `.error` propagates — only the
size grouper can error) and insert the path into its key's bucket. -/
def buildBuckets {α : Type} [DecidableEq α]
    (keyf : FPath → Except Unit (Option α)) :
    List FPath → List (α × List FPath) → Except Unit (List (α × List FPath))
  | [], acc => .ok acc
  | p :: rest, acc => do
      let k? ← keyf p
      buildBuckets keyf rest
        (match k? with
         | some k => keyInsert k p acc
         | none => acc)

/-- The total variant of `buildBuckets` for a key function that never
raises (the checksum grouper). -/
def buildBucketsT {α : Type} [DecidableEq α] (keyf : FPath → Option α) :
    List FPath → List (α × List FPath) → List (α × List FPath)
  | [], acc => acc
  | p :: rest, acc =>
      buildBucketsT keyf rest
        (match keyf p with
         | some k => keyInsert k p acc
         | none => acc)

/-- The grouping key of `group_files_by_size` (lines 60-62): `getsize`
(which may raise), with size-0 files skipped (`if size:`). -/
def sizeKey (fs : FS) (p : FPath) : Except Unit (Option Nat) :=
  match getsize fs p with
  | .ok n => .ok (if n ≠ 0 then some n else none)
  | .error e => .error e

/-- `group_files_by_size(file_path_names)` (lines 50-64): bucket by size,
then keep the bucket value lists with more than one member. -/
def group_files_by_size (fs : FS) (l : List FPath) :
    Except Unit (List (List FPath)) := do
  let buckets ← buildBuckets (sizeKey fs) l []
  pure ((buckets.map Prod.snd).filter (fun g => 1 < g.length))

/-- `group_files_by_checksum(file_path_names)` (lines 78-90): bucket by
`get_file_checksum`, skipping paths whose checksum is `None` (a real
hexdigest is a nonempty string, so Python's `if checksum:` only drops
`None`); keep buckets with more than one member. -/
def group_files_by_checksum (fs : FS) (l : List FPath) : List (List FPath) :=
  ((buildBucketsT (get_file_checksum fs) l []).map Prod.snd).filter
    (fun g => 1 < g.length)

/-- `find_duplicate_files(file_path_names)` (lines 94-103): group by size,
then extend the result with the checksum groups of each size group. -/
def find_duplicate_files (fs : FS) (l : List FPath) :
    Except Unit (List (List FPath)) := do
  let sgroups ← group_files_by_size fs l
  pure ((sgroups.map (group_files_by_checksum fs)).flatten)

/-- The inner `for filename in file_path_names[1:]` loop of
`find_duplicate_files_by_cmp` (lines 164-166): shallow-compare `current`
against each other pool member, collecting the matches in pool order; a
stat failure inside `compare_files` propagates out of the loop. -/
def collectMatches (fs : FS) (current : FPath) :
    List FPath → Except Unit (List FPath)
  | [] => .ok []
  | f :: rest => do
      let b ← compare_files fs current f true
      let ms ← collectMatches fs current rest
      pure (if b then f :: ms else ms)

/-- The `while file_path_names:` loop of `find_duplicate_files_by_cmp`
(lines 161-170).  The new pool `list(set(file_path_names) -
set(group_duplicate_files))` holds each non-cluster pool member exactly
once, in an order chosen by the Python `set` implementation; that order
is the parameter `reorder` (applied to the deduplicated remainder).  The
loop is phrased with explicit fuel; fuel equal to the pool length is
enough because each round removes at least `current` from the pool
(proved below), so the fuel-exhaustion branch is unreachable there. -/
def cmpPool (reorder : List FPath → List FPath)
    (pool cluster : List FPath) : List FPath :=
  reorder ((pool.filter (fun q => decide (q ∉ cluster))).dedup)

/-- One round of the while loop: collect the cluster of `current`, shrink
the pool with `cmpPool`, and keep the cluster when it has over one
member. -/
def cmpLoop (fs : FS) (reorder : List FPath → List FPath) :
    Nat → List FPath → Except Unit (List (List FPath))
  | _, [] => .ok []
  | 0, _ :: _ => .ok []
  | fuel + 1, current :: rest => do
      let ms ← collectMatches fs current rest
      let groups ← cmpLoop fs reorder fuel
        (cmpPool reorder (current :: rest) (current :: ms))
      pure (if 1 < (current :: ms).length then (current :: ms) :: groups
            else groups)

/-- `find_duplicate_files_by_cmp(file_path_names)` (lines 154-171). -/
def find_duplicate_files_by_cmp (fs : FS)
    (reorder : List FPath → List FPath) (l : List FPath) :
    Except Unit (List (List FPath)) :=
  cmpLoop fs reorder l.length l

/-- A regular, non-symlink file with the given content, mtime and
readability, whose stat succeeds. -/
def regFile (content : List Nat) (mtime : Nat := 0) (readOk : Bool := true) :
    FileInfo :=
  { mode := S_IFREG, isLink := false, content := content, mtime := mtime,
    statOk := true, readOk := readOk }

/-- A filesystem holding two distinct zero-byte regular files `e1`, `e2`
(every other path is a 1-byte regular file). -/
def fsEmptyPair : FS := fun p =>
  if p = "e1" ∨ p = "e2" then regFile [] else regFile [1]

/-- A filesystem holding two regular files `a`, `b` with the same 1-byte
content (every other path has different content). -/
def fsDup : FS := fun p =>
  if p = "a" ∨ p = "b" then regFile [1] else regFile [2]

/-- A filesystem with one unreadable file `u` and two readable duplicates
`a`, `b` of the same content. -/
def fsMixed : FS := fun p =>
  if p = "u" then regFile [1] 0 false
  else if p = "a" ∨ p = "b" then regFile [1] else regFile [2]

/-- A filesystem where `u` is a regular file whose stat succeeds but whose
read fails, with the same content as the readable file `v`. -/
def fsUnreadable : FS := fun p =>
  if p = "u" then regFile [1] 0 false else regFile [1]

/-- A filesystem with two regular files `s1`, `s2` of equal size and equal
mtime but different content. -/
def fsShallowPair : FS := fun p =>
  if p = "s1" then regFile [1] 7
  else if p = "s2" then regFile [2] 7
  else regFile [3]

/-- A filesystem where the stat of `x` fails. -/
def fsStatFail : FS := fun p =>
  if p = "x" then
    { mode := S_IFREG, isLink := false, content := [1], mtime := 0,
      statOk := false, readOk := true }
  else regFile [1]

/-- Three regular files of equal size: `A` and `B` share content but not
mtime, `B` and `C` share mtime (and size) but not content, and `X`
matches nothing.  Shallow comparison is not transitive here, so the
greedy clustering depends on which pool element comes first. -/
def fsOrderDep : FS := fun p =>
  if p = "A" then regFile [1] 0
  else if p = "B" then regFile [1] 5
  else if p = "C" then regFile [2] 5
  else regFile [7, 7]

/-- A copy of `fsDup` in which every path is flagged as a symlink: all the
attributes the strategies consult are unchanged. -/
def fsDupLinked : FS := fun p => { fsDup p with isLink := true }

theorem chunkLoop_iff :
    ∀ (fuel : Nat) (c1 c2 : List Nat), c1.length < fuel →
    (chunkLoop fuel c1 c2 = true ↔ c1 = c2) := by
  intro fuel
  induction fuel with
  | zero => intro c1 c2 h; exact absurd h (by omega)
  | succ fuel ih =>
      intro c1 c2 hlen
      rw [chunkLoop]
      by_cases hne : c1.take BUFSIZE ≠ c2.take BUFSIZE
      · rw [if_pos hne]
        constructor
        · intro h; exact absurd h (by decide)
        · intro h; subst h; exact absurd rfl hne
      · rw [if_neg hne]
        have htake : c1.take BUFSIZE = c2.take BUFSIZE := not_not.mp hne
        by_cases hnil : c1.take BUFSIZE = []
        · rw [if_pos hnil]
          have hc1 : c1 = [] := by
            rcases List.take_eq_nil_iff.mp hnil with h | h
            · exact absurd h (by decide)
            · exact h
          have hc2 : c2 = [] := by
            rcases List.take_eq_nil_iff.mp (htake ▸ hnil) with h | h
            · exact absurd h (by decide)
            · exact h
          simp [hc1, hc2]
        · rw [if_neg hnil]
          have hc1 : c1 ≠ [] := by
            intro h
            exact hnil (by simp [h])
          have hstep : (c1.drop BUFSIZE).length < fuel := by
            have h1 : 0 < c1.length := List.length_pos.mpr hc1
            have h2 : BUFSIZE = 8192 := rfl
            simp only [List.length_drop]
            omega
          rw [ih _ _ hstep]
          constructor
          · intro hdrop
            calc c1 = c1.take BUFSIZE ++ c1.drop BUFSIZE :=
                  (List.take_append_drop _ _).symm
              _ = c2.take BUFSIZE ++ c2.drop BUFSIZE := by rw [htake, hdrop]
              _ = c2 := List.take_append_drop _ _
          · intro h; rw [h]

theorem chunkCompare_iff (c1 c2 : List Nat) :
    chunkCompare c1 c2 = true ↔ c1 = c2 :=
  chunkLoop_iff (c1.length + 1) c1 c2 (by omega)

theorem keyInsert_sound {α : Type} [DecidableEq α] (P : FPath → α → Prop)
    {k : α} {p : FPath} {acc : List (α × List FPath)}
    (hacc : ∀ e ∈ acc, ∀ q ∈ e.2, P q e.1) (hp : P p k) :
    ∀ e ∈ keyInsert k p acc, ∀ q ∈ e.2, P q e.1 := by
  induction acc with
  | nil =>
      intro e he q hq
      simp only [keyInsert, List.mem_singleton] at he
      subst he
      simp only [List.mem_singleton] at hq
      subst hq
      exact hp
  | cons e0 rest ih =>
      obtain ⟨k0, g⟩ := e0
      intro e he q hq
      rw [keyInsert] at he
      by_cases hk : k0 = k
      · rw [if_pos hk] at he
        rcases List.mem_cons.mp he with h | h
        · subst h
          rcases List.mem_append.mp hq with h | h
          · exact hacc (k0, g) (List.mem_cons_self _ _) q h
          · simp only [List.mem_singleton] at h
            subst h; subst hk; exact hp
        · exact hacc e (List.mem_cons_of_mem _ h) q hq
      · rw [if_neg hk] at he
        rcases List.mem_cons.mp he with h | h
        · subst h
          exact hacc (k0, g) (List.mem_cons_self _ _) q hq
        · exact ih (fun e' he' => hacc e' (List.mem_cons_of_mem _ he')) e h q hq

theorem keyInsert_origin {α : Type} [DecidableEq α]
    {k : α} {p : FPath} {acc : List (α × List FPath)} :
    ∀ e ∈ keyInsert k p acc, ∀ q ∈ e.2, q = p ∨ ∃ e0 ∈ acc, q ∈ e0.2 := by
  induction acc with
  | nil =>
      intro e he q hq
      simp only [keyInsert, List.mem_singleton] at he
      subst he
      simp only [List.mem_singleton] at hq
      exact Or.inl hq
  | cons e0 rest ih =>
      obtain ⟨k0, g⟩ := e0
      intro e he q hq
      rw [keyInsert] at he
      by_cases hk : k0 = k
      · rw [if_pos hk] at he
        rcases List.mem_cons.mp he with h | h
        · subst h
          rcases List.mem_append.mp hq with h | h
          · exact Or.inr ⟨(k0, g), (List.mem_cons_self _ _), h⟩
          · simp only [List.mem_singleton] at h
            exact Or.inl h
        · exact Or.inr ⟨e, List.mem_cons_of_mem _ h, hq⟩
      · rw [if_neg hk] at he
        rcases List.mem_cons.mp he with h | h
        · subst h
          exact Or.inr ⟨(k0, g), (List.mem_cons_self _ _), hq⟩
        · rcases ih e h q hq with h' | ⟨e0, he0, hqe0⟩
          · exact Or.inl h'
          · exact Or.inr ⟨e0, List.mem_cons_of_mem _ he0, hqe0⟩

theorem keyInsert_keys {α : Type} [DecidableEq α]
    (k : α) (p : FPath) (acc : List (α × List FPath)) :
    (keyInsert k p acc).map Prod.fst =
      if k ∈ acc.map Prod.fst then acc.map Prod.fst
      else acc.map Prod.fst ++ [k] := by
  induction acc with
  | nil => simp [keyInsert]
  | cons e0 rest ih =>
      obtain ⟨k0, g⟩ := e0
      rw [keyInsert]
      by_cases hk : k0 = k
      · subst hk
        simp [List.mem_cons]
      · rw [if_neg hk]
        simp only [List.map_cons, List.mem_cons]
        rw [ih]
        by_cases hmem : k ∈ rest.map Prod.fst
        · simp [hmem, hk, Ne.symm hk]
        · simp [hmem, hk, Ne.symm hk]

theorem keyInsert_nodup {α : Type} [DecidableEq α]
    {k : α} {p : FPath} {acc : List (α × List FPath)}
    (h : (acc.map Prod.fst).Nodup) :
    ((keyInsert k p acc).map Prod.fst).Nodup := by
  rw [keyInsert_keys]
  by_cases hmem : k ∈ acc.map Prod.fst
  · rw [if_pos hmem]; exact h
  · rw [if_neg hmem]
    simp [List.nodup_append, h, hmem]

theorem keyInsert_persist {α : Type} [DecidableEq α]
    {k0 : α} {g : List FPath} {k : α} {p : FPath}
    {acc : List (α × List FPath)} (h : (k0, g) ∈ acc) :
    ∃ g', (k0, g') ∈ keyInsert k p acc ∧ ∀ q ∈ g, q ∈ g' := by
  induction acc with
  | nil => cases h
  | cons e0 rest ih =>
      obtain ⟨k1, g1⟩ := e0
      rw [keyInsert]
      by_cases hk : k1 = k
      · rw [if_pos hk]
        rcases List.mem_cons.mp h with h' | h'
        · injection h' with h1 h2
          subst h1; subst h2
          exact ⟨g ++ [p], (List.mem_cons_self _ _),
            fun q hq => List.mem_append.mpr (Or.inl hq)⟩
        · exact ⟨g, List.mem_cons_of_mem _ h', fun q hq => hq⟩
      · rw [if_neg hk]
        rcases List.mem_cons.mp h with h' | h'
        · injection h' with h1 h2
          subst h1; subst h2
          exact ⟨g, (List.mem_cons_self _ _), fun q hq => hq⟩
        · obtain ⟨g', hg', hsub⟩ := ih h'
          exact ⟨g', List.mem_cons_of_mem _ hg', hsub⟩

theorem keyInsert_hit {α : Type} [DecidableEq α]
    (k : α) (p : FPath) (acc : List (α × List FPath)) :
    ∃ g, (k, g) ∈ keyInsert k p acc ∧ p ∈ g := by
  induction acc with
  | nil => exact ⟨[p], List.mem_singleton.mpr rfl, List.mem_singleton.mpr rfl⟩
  | cons e0 rest ih =>
      obtain ⟨k1, g1⟩ := e0
      rw [keyInsert]
      by_cases hk : k1 = k
      · subst hk
        rw [if_pos rfl]
        exact ⟨g1 ++ [p], (List.mem_cons_self _ _),
          List.mem_append.mpr (Or.inr (List.mem_singleton.mpr rfl))⟩
      · rw [if_neg hk]
        obtain ⟨g, hg, hp⟩ := ih
        exact ⟨g, List.mem_cons_of_mem _ hg, hp⟩

theorem buildBuckets_sound {α : Type} [DecidableEq α]
    {keyf : FPath → Except Unit (Option α)} :
    ∀ {l : List FPath} {acc bs : List (α × List FPath)},
    (∀ e ∈ acc, ∀ q ∈ e.2, keyf q = .ok (some e.1)) →
    buildBuckets keyf l acc = .ok bs →
    ∀ e ∈ bs, ∀ q ∈ e.2, keyf q = .ok (some e.1) := by
  intro l
  induction l with
  | nil =>
      intro acc bs hacc hok
      rw [buildBuckets] at hok
      injection hok with h
      subst h
      exact hacc
  | cons p rest ih =>
      intro acc bs hacc hok
      rw [buildBuckets] at hok
      cases hk : keyf p with
      | error e => rw [hk] at hok; exact absurd hok (by simp [Bind.bind, Except.bind])
      | ok k? =>
          rw [hk] at hok
          simp only [Bind.bind, Except.bind] at hok
          cases k? with
          | none => exact ih hacc hok
          | some k =>
              have hacc' : ∀ e ∈ keyInsert k p acc, ∀ q ∈ e.2,
                  keyf q = .ok (some e.1) :=
                keyInsert_sound (fun q k' => keyf q = .ok (some k')) hacc hk
              exact ih hacc' hok

theorem buildBuckets_origin {α : Type} [DecidableEq α]
    {keyf : FPath → Except Unit (Option α)} :
    ∀ {l : List FPath} {acc bs : List (α × List FPath)},
    buildBuckets keyf l acc = .ok bs →
    ∀ e ∈ bs, ∀ q ∈ e.2, (∃ e0 ∈ acc, q ∈ e0.2) ∨ q ∈ l := by
  intro l
  induction l with
  | nil =>
      intro acc bs hok e he q hq
      rw [buildBuckets] at hok
      injection hok with h
      subst h
      exact Or.inl ⟨e, he, hq⟩
  | cons p rest ih =>
      intro acc bs hok e he q hq
      rw [buildBuckets] at hok
      cases hk : keyf p with
      | error e' => rw [hk] at hok; exact absurd hok (by simp [Bind.bind, Except.bind])
      | ok k? =>
          rw [hk] at hok
          simp only [Bind.bind, Except.bind] at hok
          cases k? with
          | none =>
              rcases ih hok e he q hq with h | h
              · exact Or.inl h
              · exact Or.inr (List.mem_cons_of_mem _ h)
          | some k =>
              have hok' : buildBuckets keyf rest (keyInsert k p acc) = .ok bs := hok
              rcases ih hok' e he q hq with ⟨e0, he0, hq0⟩ | h
              · rcases keyInsert_origin e0 he0 q hq0 with h | ⟨e1, he1, hq1⟩
                · exact Or.inr (h ▸ List.mem_cons_self _ _)
                · exact Or.inl ⟨e1, he1, hq1⟩
              · exact Or.inr (List.mem_cons_of_mem _ h)

theorem buildBuckets_nodup {α : Type} [DecidableEq α]
    {keyf : FPath → Except Unit (Option α)} :
    ∀ {l : List FPath} {acc bs : List (α × List FPath)},
    (acc.map Prod.fst).Nodup →
    buildBuckets keyf l acc = .ok bs →
    (bs.map Prod.fst).Nodup := by
  intro l
  induction l with
  | nil =>
      intro acc bs hacc hok
      rw [buildBuckets] at hok
      injection hok with h
      subst h
      exact hacc
  | cons p rest ih =>
      intro acc bs hacc hok
      rw [buildBuckets] at hok
      cases hk : keyf p with
      | error e' => rw [hk] at hok; exact absurd hok (by simp [Bind.bind, Except.bind])
      | ok k? =>
          rw [hk] at hok
          simp only [Bind.bind, Except.bind] at hok
          cases k? with
          | none => exact ih hacc hok
          | some k =>
              have hok' : buildBuckets keyf rest (keyInsert k p acc) = .ok bs := hok
              exact ih (keyInsert_nodup hacc) hok'

theorem buildBuckets_persist {α : Type} [DecidableEq α]
    {keyf : FPath → Except Unit (Option α)} :
    ∀ {l : List FPath} {acc bs : List (α × List FPath)} {k0 : α} {g : List FPath},
    (k0, g) ∈ acc →
    buildBuckets keyf l acc = .ok bs →
    ∃ g', (k0, g') ∈ bs ∧ ∀ q ∈ g, q ∈ g' := by
  intro l
  induction l with
  | nil =>
      intro acc bs k0 g hg hok
      rw [buildBuckets] at hok
      injection hok with h
      subst h
      exact ⟨g, hg, fun q hq => hq⟩
  | cons p rest ih =>
      intro acc bs k0 g hg hok
      rw [buildBuckets] at hok
      cases hk : keyf p with
      | error e' => rw [hk] at hok; exact absurd hok (by simp [Bind.bind, Except.bind])
      | ok k? =>
          rw [hk] at hok
          simp only [Bind.bind, Except.bind] at hok
          cases k? with
          | none => exact ih hg hok
          | some k =>
              have hok' : buildBuckets keyf rest (keyInsert k p acc) = .ok bs := hok
              have hkp : ∃ g', (k0, g') ∈ keyInsert k p acc ∧
                  ∀ q ∈ g, q ∈ g' := keyInsert_persist hg
              obtain ⟨g1, hg1, hsub1⟩ := hkp
              obtain ⟨g2, hg2, hsub2⟩ := ih hg1 hok'
              exact ⟨g2, hg2, fun q hq => hsub2 q (hsub1 q hq)⟩

theorem buildBuckets_complete {α : Type} [DecidableEq α]
    {keyf : FPath → Except Unit (Option α)} :
    ∀ {l : List FPath} {acc bs : List (α × List FPath)} {p : FPath} {k : α},
    p ∈ l → keyf p = .ok (some k) →
    buildBuckets keyf l acc = .ok bs →
    ∃ g, (k, g) ∈ bs ∧ p ∈ g := by
  intro l
  induction l with
  | nil => intro acc bs p k hp; cases hp
  | cons p0 rest ih =>
      intro acc bs p k hp hkey hok
      rw [buildBuckets] at hok
      rcases List.mem_cons.mp hp with hp' | hp'
      · subst hp'
        rw [hkey] at hok
        simp only [Bind.bind, Except.bind] at hok
        have hok' : buildBuckets keyf rest (keyInsert k p acc) = .ok bs := hok
        obtain ⟨g1, hg1, hmem1⟩ := keyInsert_hit k p acc
        obtain ⟨g2, hg2, hsub2⟩ := buildBuckets_persist hg1 hok'
        exact ⟨g2, hg2, hsub2 p hmem1⟩
      · cases hk : keyf p0 with
        | error e' => rw [hk] at hok; exact absurd hok (by simp [Bind.bind, Except.bind])
        | ok k? =>
            rw [hk] at hok
            simp only [Bind.bind, Except.bind] at hok
            cases k? with
            | none => exact ih hp' hkey hok
            | some k1 =>
                have hok' : buildBuckets keyf rest (keyInsert k1 p0 acc) = .ok bs := hok
                exact ih hp' hkey hok'

theorem bucket_unique {α : Type} [DecidableEq α]
    {bs : List (α × List FPath)} (hnd : (bs.map Prod.fst).Nodup)
    {k : α} {g1 g2 : List FPath} (h1 : (k, g1) ∈ bs) (h2 : (k, g2) ∈ bs) :
    g1 = g2 := by
  induction bs with
  | nil => cases h1
  | cons e rest ih =>
      obtain ⟨k0, g0⟩ := e
      simp only [List.map_cons, List.nodup_cons] at hnd
      rcases List.mem_cons.mp h1 with h1' | h1' <;>
        rcases List.mem_cons.mp h2 with h2' | h2'
      · injection h1' with ha hb; injection h2' with hc hd
        subst hb; subst hd; rfl
      · injection h1' with ha hb
        subst ha
        exact absurd (List.mem_map_of_mem Prod.fst h2') hnd.1
      · injection h2' with ha hb
        subst ha
        exact absurd (List.mem_map_of_mem Prod.fst h1') hnd.1
      · exact ih hnd.2 h1' h2'

theorem buildBucketsT_spec {α : Type} [DecidableEq α]
    (keyf : FPath → Option α) (l : List FPath) (acc : List (α × List FPath)) :
    buildBuckets (fun p => .ok (keyf p)) l acc = .ok (buildBucketsT keyf l acc) := by
  induction l generalizing acc with
  | nil => rw [buildBuckets, buildBucketsT]
  | cons p rest ih =>
      rw [buildBuckets, buildBucketsT]
      simp only [Bind.bind, Except.bind]
      exact ih _

theorem two_mem_one_lt {g : List FPath} {p1 p2 : FPath}
    (h1 : p1 ∈ g) (h2 : p2 ∈ g) (hne : p1 ≠ p2) : 1 < g.length := by
  match g with
  | [] => cases h1
  | [x] =>
      rw [List.mem_singleton] at h1 h2
      exact absurd (h1.trans h2.symm) hne
  | x :: y :: rest =>
      simp only [List.length_cons]
      omega

theorem sizeKey_eq_some {fs : FS} {p : FPath} {k : Nat} :
    sizeKey fs p = .ok (some k) ↔
      (fs p).statOk ∧ (fs p).content.length = k ∧ k ≠ 0 := by
  rw [sizeKey, getsize]
  by_cases hs : (fs p).statOk
  · rw [if_pos hs]
    by_cases hz : (fs p).content.length ≠ 0
    · simp [hz, hs, eq_comm]
      intro h; subst h; exact hz
    · simp only [not_not] at hz
      simp [hz, hs]
      omega
  · rw [if_neg hs]
    simp [hs]

theorem group_files_by_size_ok {fs : FS} {l : List FPath} {gs : List (List FPath)}
    (h : group_files_by_size fs l = .ok gs) :
    ∃ bs, buildBuckets (sizeKey fs) l [] = .ok bs ∧
      gs = (bs.map Prod.snd).filter (fun g => 1 < g.length) := by
  rw [group_files_by_size] at h
  cases hb : buildBuckets (sizeKey fs) l [] with
  | error e =>
      rw [hb] at h
      exact absurd h (by simp [Bind.bind, Except.bind])
  | ok bs =>
      rw [hb] at h
      simp only [Bind.bind, Except.bind, Pure.pure, Except.pure] at h
      injection h with h
      exact ⟨bs, rfl, h.symm⟩

theorem size_group_mem {fs : FS} {l : List FPath} {gs : List (List FPath)}
    (hok : group_files_by_size fs l = .ok gs) :
    ∀ g ∈ gs, 1 < g.length ∧
      ∀ p ∈ g, p ∈ l ∧ (fs p).statOk ∧ (fs p).content.length ≠ 0 := by
  obtain ⟨bs, hb, hgs⟩ := group_files_by_size_ok hok
  intro g hg
  subst hgs
  obtain ⟨hmem, hlen⟩ := List.mem_filter.mp hg
  refine ⟨by simpa using hlen, ?_⟩
  obtain ⟨e, he, hsnd⟩ := List.mem_map.mp hmem
  intro p hp
  rw [← hsnd] at hp
  have hsound := buildBuckets_sound (by intro e' he'; cases he') hb e he p hp
  obtain ⟨hstat, hlen', hnz⟩ := sizeKey_eq_some.mp hsound
  have horig := buildBuckets_origin hb e he p hp
  rcases horig with ⟨e0, he0, _⟩ | hl
  · cases he0
  · exact ⟨hl, hstat, hlen' ▸ hnz⟩

theorem gfbc_buckets (fs : FS) (l : List FPath) :
    buildBuckets (fun p => .ok (get_file_checksum fs p)) l [] =
      .ok (buildBucketsT (get_file_checksum fs) l []) :=
  buildBucketsT_spec _ _ _

theorem checksum_group_mem {fs : FS} {l : List FPath} :
    ∀ g ∈ group_files_by_checksum fs l, 1 < g.length ∧
      ∀ p ∈ g, p ∈ l ∧ (fs p).readOk ∧
        ∀ q ∈ g, (fs q).content = (fs p).content := by
  intro g hg
  rw [group_files_by_checksum] at hg
  obtain ⟨hmem, hlen⟩ := List.mem_filter.mp hg
  refine ⟨by simpa using hlen, ?_⟩
  obtain ⟨e, he, hsnd⟩ := List.mem_map.mp hmem
  intro p hp
  rw [← hsnd] at hp
  have hsound := buildBuckets_sound
    (fun e' he' => absurd he' (List.not_mem_nil _)) (gfbc_buckets fs l) e he p hp
  injection hsound with hsound
  have horig := buildBuckets_origin (gfbc_buckets fs l) e he p hp
  have hpl : p ∈ l := by
    rcases horig with ⟨e0, he0, _⟩ | hl
    · cases he0
    · exact hl
  rw [get_file_checksum] at hsound
  by_cases hr : (fs p).readOk
  · rw [if_pos hr] at hsound
    injection hsound with hsound
    refine ⟨hpl, hr, ?_⟩
    intro q hq
    rw [← hsnd] at hq
    have hsq := buildBuckets_sound
      (fun e' he' => absurd he' (List.not_mem_nil _)) (gfbc_buckets fs l) e he q hq
    injection hsq with hsq
    rw [get_file_checksum] at hsq
    by_cases hrq : (fs q).readOk
    · rw [if_pos hrq] at hsq
      injection hsq with hsq
      rw [md5hex] at hsq hsound
      rw [hsq, hsound]
    · rw [if_neg hrq] at hsq; cases hsq
  · rw [if_neg hr] at hsound; cases hsound

theorem checksum_complete {fs : FS} {l : List FPath} {p1 p2 : FPath}
    (h1 : p1 ∈ l) (h2 : p2 ∈ l) (hne : p1 ≠ p2)
    (hr1 : (fs p1).readOk) (hr2 : (fs p2).readOk)
    (hc : (fs p1).content = (fs p2).content) :
    ∃ g ∈ group_files_by_checksum fs l, p1 ∈ g ∧ p2 ∈ g := by
  have hk1 : (Except.ok (get_file_checksum fs p1) :
      Except Unit (Option (List Nat))) =
      .ok (some (md5hex (fs p1).content)) := by
    simp [get_file_checksum, hr1]
  have hk2 : (Except.ok (get_file_checksum fs p2) :
      Except Unit (Option (List Nat))) =
      .ok (some (md5hex (fs p1).content)) := by
    simp [get_file_checksum, hr2, md5hex, hc]
  obtain ⟨g1, hg1, hm1⟩ := buildBuckets_complete h1 hk1 (gfbc_buckets fs l)
  obtain ⟨g2, hg2, hm2⟩ := buildBuckets_complete h2 hk2 (gfbc_buckets fs l)
  have hnd := buildBuckets_nodup (by simp) (gfbc_buckets fs l)
  have hgeq := bucket_unique hnd hg1 hg2
  subst hgeq
  refine ⟨g1, ?_, hm1, hm2⟩
  rw [group_files_by_checksum]
  apply List.mem_filter.mpr
  refine ⟨List.mem_map.mpr ⟨_, hg1, rfl⟩, ?_⟩
  simpa using two_mem_one_lt hm1 hm2 hne

theorem buckets_values_disjoint {α : Type} [DecidableEq α]
    {keyf : FPath → Except Unit (Option α)} {l : List FPath}
    {bs : List (α × List FPath)} (hok : buildBuckets keyf l [] = .ok bs) :
    List.Pairwise List.Disjoint (bs.map Prod.snd) := by
  have hnd := buildBuckets_nodup (by simp) hok
  have hsound := buildBuckets_sound (by intro e' he'; cases he') hok
  rw [List.pairwise_map]
  have hnd2 : List.Pairwise (fun a b : α × List FPath => a.1 ≠ b.1) bs :=
    List.pairwise_map.mp hnd
  refine hnd2.imp_of_mem ?_
  intro e1 e2 he1 he2 hne q hq1 hq2
  have h1 := hsound e1 he1 q hq1
  have h2 := hsound e2 he2 q hq2
  rw [h1] at h2
  injection h2 with h2
  injection h2 with h2
  exact hne h2

theorem buildBuckets_allOk {α : Type} [DecidableEq α]
    {keyf : FPath → Except Unit (Option α)} :
    ∀ {l : List FPath} {acc bs : List (α × List FPath)},
    buildBuckets keyf l acc = .ok bs → ∀ p ∈ l, ∃ r, keyf p = .ok r := by
  intro l
  induction l with
  | nil => intro acc bs _ p hp; cases hp
  | cons p0 rest ih =>
      intro acc bs hok p hp
      rw [buildBuckets] at hok
      cases hk : keyf p0 with
      | error e' => rw [hk] at hok; exact absurd hok (by simp [Bind.bind, Except.bind])
      | ok k? =>
          rw [hk] at hok
          simp only [Bind.bind, Except.bind] at hok
          rcases List.mem_cons.mp hp with hp' | hp'
          · exact hp' ▸ ⟨k?, hk⟩
          · cases k? with
            | none => exact ih hok p hp'
            | some k =>
                have hok' : buildBuckets keyf rest (keyInsert k p0 acc) = .ok bs := hok
                exact ih hok' p hp'

theorem sizeKey_statOk {fs : FS} {p : FPath} {r : Option Nat}
    (h : sizeKey fs p = .ok r) : (fs p).statOk := by
  by_contra hs
  rw [sizeKey, getsize, if_neg hs] at h
  cases h

theorem find_duplicate_files_ok {fs : FS} {l : List FPath}
    {gs : List (List FPath)} (h : find_duplicate_files fs l = .ok gs) :
    ∃ sgroups, group_files_by_size fs l = .ok sgroups ∧
      gs = (sgroups.map (group_files_by_checksum fs)).flatten := by
  rw [find_duplicate_files] at h
  cases hb : group_files_by_size fs l with
  | error e =>
      rw [hb] at h
      exact absurd h (by simp [Bind.bind, Except.bind])
  | ok sgroups =>
      rw [hb] at h
      simp only [Bind.bind, Except.bind, Pure.pure, Except.pure] at h
      injection h with h
      exact ⟨sgroups, rfl, h.symm⟩

/-- C2: under the checksum strategy, the claim as stated fails on
zero-byte files: two distinct, readable, regular files with equal (empty)
content and equal (zero) size are placed in no output group at all,
because `group_files_by_size` drops size-0 files (`if size:`), so they are
not "placed in the same output group".  Negation of the claim at the
concrete input `fsEmptyPair`, `["e1", "e2"]`. -/
theorem C2_counterexample :
    ¬ (∀ (fs : FS) (l : List FPath) (gs : List (List FPath)) (p1 p2 : FPath),
        find_duplicate_files fs l = .ok gs → p1 ∈ l → p2 ∈ l → p1 ≠ p2 →
        (fs p1).readOk → (fs p2).readOk →
        S_IFMT (fs p1).mode = S_IFREG → S_IFMT (fs p2).mode = S_IFREG →
        (fs p1).content = (fs p2).content →
        ∃ g ∈ gs, p1 ∈ g ∧ p2 ∈ g) := by
  intro h
  obtain ⟨g, hg, -⟩ :=
    h fsEmptyPair ["e1", "e2"] [] "e1" "e2" rfl (by decide) (by decide)
      (by decide) rfl rfl rfl rfl rfl
  cases hg

/-- C2 (amended): under the checksum strategy, any two distinct readable
files with equal content and equal NONZERO size are placed in the same
output group, and any two files with different content (in particular,
with equal size but different content) are never placed in the same
output group. -/
theorem C2_checksum_grouping (fs : FS) (l : List FPath)
    (gs : List (List FPath)) (p1 p2 : FPath)
    (hok : find_duplicate_files fs l = .ok gs) :
    (p1 ∈ l → p2 ∈ l → p1 ≠ p2 → (fs p1).readOk → (fs p2).readOk →
      (fs p1).content = (fs p2).content → (fs p1).content.length ≠ 0 →
      ∃ g ∈ gs, p1 ∈ g ∧ p2 ∈ g) ∧
    ((fs p1).content ≠ (fs p2).content →
      ∀ g ∈ gs, p1 ∈ g → p2 ∉ g) := by
  obtain ⟨sgroups, hsz, hgs⟩ := find_duplicate_files_ok hok
  obtain ⟨bs, hb, hsgroups⟩ := group_files_by_size_ok hsz
  constructor
  · intro h1 h2 hne hr1 hr2 hceq hnz
    obtain ⟨r1, hk1⟩ := buildBuckets_allOk hb p1 h1
    obtain ⟨r2, hk2⟩ := buildBuckets_allOk hb p2 h2
    have hst1 : (fs p1).statOk := sizeKey_statOk hk1
    have hst2 : (fs p2).statOk := sizeKey_statOk hk2
    have hsk1 : sizeKey fs p1 = .ok (some (fs p1).content.length) :=
      sizeKey_eq_some.mpr ⟨hst1, rfl, hnz⟩
    have hsk2 : sizeKey fs p2 = .ok (some (fs p1).content.length) :=
      sizeKey_eq_some.mpr ⟨hst2, by rw [hceq], by rw [hceq] at hnz; rw [hceq]; exact hnz⟩
    obtain ⟨g1, hg1, hm1⟩ := buildBuckets_complete h1 hsk1 hb
    obtain ⟨g2, hg2, hm2⟩ := buildBuckets_complete h2 hsk2 hb
    have hnd := buildBuckets_nodup (by simp) hb
    have hgeq := bucket_unique hnd hg1 hg2
    subst hgeq
    have hg0 : g1 ∈ sgroups := by
      rw [hsgroups]
      apply List.mem_filter.mpr
      refine ⟨List.mem_map.mpr ⟨_, hg1, rfl⟩, ?_⟩
      simpa using two_mem_one_lt hm1 hm2 hne
    obtain ⟨g, hg, hgm1, hgm2⟩ :=
      checksum_complete hm1 hm2 hne hr1 hr2 hceq
    refine ⟨g, ?_, hgm1, hgm2⟩
    rw [hgs]
    exact List.mem_flatten.mpr ⟨_, List.mem_map_of_mem _ hg0, hg⟩
  · intro hcne g hg hp1 hp2
    rw [hgs] at hg
    obtain ⟨L, hL, hgL⟩ := List.mem_flatten.mp hg
    obtain ⟨g0, hg0, hLg⟩ := List.mem_map.mp hL
    rw [← hLg] at hgL
    obtain ⟨-, hprops⟩ := checksum_group_mem g hgL
    obtain ⟨-, -, hsame⟩ := hprops p1 hp1
    exact hcne ((hsame p2 hp2).symm)

/-- C2 witness: on the filesystem `fsDup` with input `["a", "b"]` the
strategy outputs the single group `["a", "b"]`, and the amended theorem
places `a` and `b` in a common group. -/
theorem C2_checksum_grouping_witness :
    ∃ g ∈ [["a", "b"]], "a" ∈ g ∧ "b" ∈ g := by
  obtain ⟨hpos, -⟩ :=
    C2_checksum_grouping fsDup ["a", "b"] [["a", "b"]] "a" "b" rfl
  exact hpos (by decide) (by decide) (by decide) rfl rfl rfl (by decide)

theorem collectMatches_subset {fs : FS} {current : FPath} :
    ∀ {l ms : List FPath}, collectMatches fs current l = .ok ms →
    ∀ q ∈ ms, q ∈ l := by
  intro l
  induction l with
  | nil =>
      intro ms hok q hq
      rw [collectMatches] at hok
      injection hok with h
      subst h
      cases hq
  | cons f rest ih =>
      intro ms hok q hq
      rw [collectMatches] at hok
      cases hb : compare_files fs current f true with
      | error e => rw [hb] at hok; exact absurd hok (by simp [Bind.bind, Except.bind])
      | ok b =>
          rw [hb] at hok
          simp only [Bind.bind, Except.bind] at hok
          cases hms : collectMatches fs current rest with
          | error e => rw [hms] at hok; exact absurd hok (by simp)
          | ok ms0 =>
              rw [hms] at hok
              simp only [Pure.pure, Except.pure] at hok
              injection hok with h
              subst h
              cases b with
              | true =>
                  simp only [if_true] at hq
                  rcases List.mem_cons.mp hq with h | h
                  · exact h ▸ List.mem_cons_self _ _
                  · exact List.mem_cons_of_mem _ (ih hms q h)
              | false =>
                  rw [if_neg (by simp)] at hq
                  exact List.mem_cons_of_mem _ (ih hms q hq)

theorem cmpPool_mem {reorder : List FPath → List FPath}
    (hre : ∀ x, reorder x ⊆ x) {pool cluster : List FPath} {q : FPath}
    (hq : q ∈ cmpPool reorder pool cluster) : q ∈ pool ∧ q ∉ cluster := by
  have h1 := hre _ hq
  rw [List.mem_dedup] at h1
  obtain ⟨hmem, hdec⟩ := List.mem_filter.mp h1
  exact ⟨hmem, of_decide_eq_true hdec⟩

theorem cmpPool_length {reorder : List FPath → List FPath}
    (hperm : ∀ x, List.Perm (reorder x) x) {current : FPath}
    {rest cluster : List FPath} (hc : current ∈ cluster) :
    (cmpPool reorder (current :: rest) cluster).length ≤ rest.length := by
  have h2 : (current :: rest).filter (fun q => decide (q ∉ cluster)) =
      rest.filter (fun q => decide (q ∉ cluster)) :=
    List.filter_cons_of_neg (by simp [hc])
  rw [cmpPool, (hperm _).length_eq, h2]
  exact le_trans (List.dedup_sublist _).length_le (List.length_filter_le _ _)

theorem cmpLoop_groups {fs : FS} {reorder : List FPath → List FPath}
    (hre : ∀ x, reorder x ⊆ x) :
    ∀ (fuel : Nat) (l : List FPath) (gs : List (List FPath)),
    cmpLoop fs reorder fuel l = .ok gs →
    (∀ g ∈ gs, 1 < g.length ∧ ∀ q ∈ g, q ∈ l) ∧
      List.Pairwise List.Disjoint gs := by
  intro fuel
  induction fuel with
  | zero =>
      intro l gs hok
      cases l with
      | nil =>
          rw [cmpLoop] at hok
          injection hok with h
          subst h
          exact ⟨by simp, by simp⟩
      | cons c rest =>
          rw [cmpLoop] at hok
          injection hok with h
          subst h
          exact ⟨by simp, by simp⟩
  | succ fuel ih =>
      intro l gs hok
      cases l with
      | nil =>
          rw [cmpLoop] at hok
          injection hok with h
          subst h
          exact ⟨by simp, by simp⟩
      | cons current rest =>
          rw [cmpLoop] at hok
          cases hm : collectMatches fs current rest with
          | error e =>
              rw [hm] at hok
              exact absurd hok (by simp [Bind.bind, Except.bind])
          | ok ms =>
              rw [hm] at hok
              simp only [Bind.bind, Except.bind] at hok
              cases hrec : cmpLoop fs reorder fuel
                  (cmpPool reorder (current :: rest) (current :: ms)) with
              | error e => rw [hrec] at hok; exact absurd hok (by simp)
              | ok groups =>
                  rw [hrec] at hok
                  simp only [Pure.pure, Except.pure] at hok
                  injection hok with h
                  obtain ⟨ihmem, ihdisj⟩ := ih _ _ hrec
                  have hclmem : ∀ q ∈ current :: ms, q ∈ current :: rest := by
                    intro q hq
                    rcases List.mem_cons.mp hq with h' | h'
                    · exact h' ▸ List.mem_cons_self _ _
                    · exact List.mem_cons_of_mem _
                        (collectMatches_subset hm q h')
                  have hgrpmem : ∀ g ∈ groups, ∀ q ∈ g, q ∈ current :: rest :=
                    fun g hg q hq => (cmpPool_mem hre ((ihmem g hg).2 q hq)).1
                  have hgrpncl : ∀ g ∈ groups, ∀ q ∈ g, q ∉ current :: ms :=
                    fun g hg q hq => (cmpPool_mem hre ((ihmem g hg).2 q hq)).2
                  by_cases hlen : 1 < (current :: ms).length
                  · rw [if_pos hlen] at h
                    subst h
                    constructor
                    · intro g hg
                      rcases List.mem_cons.mp hg with h' | h'
                      · subst h'
                        exact ⟨hlen, hclmem⟩
                      · exact ⟨(ihmem g h').1, hgrpmem g h'⟩
                    · rw [List.pairwise_cons]
                      refine ⟨?_, ihdisj⟩
                      intro g hg q hq1 hq2
                      exact hgrpncl g hg q hq2 hq1
                  · rw [if_neg hlen] at h
                    subst h
                    exact ⟨fun g hg => ⟨(ihmem g hg).1, hgrpmem g hg⟩, ihdisj⟩

theorem cmpLoop_fuel_succ {fs : FS} {reorder : List FPath → List FPath}
    (hperm : ∀ x, List.Perm (reorder x) x) :
    ∀ (fuel : Nat) (l : List FPath), l.length ≤ fuel →
    cmpLoop fs reorder fuel l = cmpLoop fs reorder (fuel + 1) l := by
  intro fuel
  induction fuel with
  | zero =>
      intro l hl
      have : l = [] := List.length_eq_zero.mp (Nat.le_zero.mp hl)
      subst this
      rw [cmpLoop, cmpLoop]
  | succ fuel ih =>
      intro l hl
      cases l with
      | nil => rw [cmpLoop, cmpLoop]
      | cons current rest =>
          rw [cmpLoop]
          conv_rhs => rw [cmpLoop]
          cases hm : collectMatches fs current rest with
          | error e => rfl
          | ok ms =>
              simp only [Bind.bind, Except.bind]
              have hlen : (cmpPool reorder (current :: rest)
                  (current :: ms)).length ≤ fuel :=
                le_trans (cmpPool_length hperm (List.mem_cons_self _ _))
                  (by simpa using Nat.le_of_succ_le_succ hl)
              rw [ih _ hlen]

theorem cmpLoop_fuel_ge {fs : FS} {reorder : List FPath → List FPath}
    (hperm : ∀ x, List.Perm (reorder x) x) (l : List FPath) (fuel : Nat)
    (hle : l.length ≤ fuel) :
    cmpLoop fs reorder fuel l = find_duplicate_files_by_cmp fs reorder l := by
  rw [find_duplicate_files_by_cmp]
  induction fuel, hle using Nat.le_induction with
  | base => rfl
  | succ fuel hle ih => rw [← cmpLoop_fuel_succ hperm fuel l hle, ih]

theorem gfbc_disjoint (fs : FS) (l : List FPath) :
    List.Pairwise List.Disjoint (group_files_by_checksum fs l) := by
  rw [group_files_by_checksum]
  exact List.Pairwise.sublist (List.filter_sublist _)
    (buckets_values_disjoint (gfbc_buckets fs l))

theorem gfbs_disjoint {fs : FS} {l : List FPath} {gs : List (List FPath)}
    (hok : group_files_by_size fs l = .ok gs) :
    List.Pairwise List.Disjoint gs := by
  obtain ⟨bs, hb, hgs⟩ := group_files_by_size_ok hok
  subst hgs
  exact List.Pairwise.sublist (List.filter_sublist _)
    (buckets_values_disjoint hb)

theorem fdf_disjoint {fs : FS} {l : List FPath} {gs : List (List FPath)}
    (hok : find_duplicate_files fs l = .ok gs) :
    List.Pairwise List.Disjoint gs := by
  obtain ⟨sgroups, hsz, hgs⟩ := find_duplicate_files_ok hok
  subst hgs
  rw [List.pairwise_flatten]
  constructor
  · intro L hL
    obtain ⟨g0, hg0, hLg⟩ := List.mem_map.mp hL
    exact hLg ▸ gfbc_disjoint fs g0
  · rw [List.pairwise_map]
    refine (gfbs_disjoint hsz).imp ?_
    intro g0 g1 hdisj x hx y hy q hqx hqy
    obtain ⟨-, hpx⟩ := checksum_group_mem x hx
    obtain ⟨-, hpy⟩ := checksum_group_mem y hy
    exact hdisj (hpx q hqx).1 (hpy q hqy).1

theorem fdf_members {fs : FS} {l : List FPath} {gs : List (List FPath)}
    (hok : find_duplicate_files fs l = .ok gs) :
    ∀ g ∈ gs, 1 < g.length ∧ ∀ p ∈ g,
      p ∈ l ∧ (fs p).statOk ∧ (fs p).content.length ≠ 0 ∧ (fs p).readOk := by
  obtain ⟨sgroups, hsz, hgs⟩ := find_duplicate_files_ok hok
  subst hgs
  intro g hg
  obtain ⟨L, hL, hgL⟩ := List.mem_flatten.mp hg
  obtain ⟨g0, hg0, hLg⟩ := List.mem_map.mp hL
  rw [← hLg] at hgL
  obtain ⟨hlen, hprops⟩ := checksum_group_mem g hgL
  refine ⟨hlen, ?_⟩
  intro p hp
  obtain ⟨hpg0, hread, -⟩ := hprops p hp
  obtain ⟨-, hmem⟩ := size_group_mem hsz g0 hg0
  obtain ⟨hpl, hstat, hnz⟩ := hmem p hpg0
  exact ⟨hpl, hstat, hnz, hread⟩

/-- C10: `find_duplicate_files_by_cmp` terminates on every finite input:
each round's current path is a member of its own cluster and is removed
from the pool, so the pool strictly shrinks; consequently fuel equal to
the initial pool length already computes the loop's fixpoint, and any
larger fuel gives the same result. -/
theorem C10_cmp_terminates (fs : FS) (reorder : List FPath → List FPath)
    (hperm : ∀ x, List.Perm (reorder x) x) (l : List FPath) (fuel : Nat)
    (hfuel : l.length ≤ fuel) :
    cmpLoop fs reorder fuel l = find_duplicate_files_by_cmp fs reorder l ∧
    ∀ (current : FPath) (rest cluster : List FPath), current ∈ cluster →
      (cmpPool reorder (current :: rest) cluster).length <
        (current :: rest).length := by
  refine ⟨cmpLoop_fuel_ge hperm l fuel hfuel, ?_⟩
  intro current rest cluster hc
  exact Nat.lt_of_le_of_lt (cmpPool_length hperm hc) (by simp)

/-- C10 witness: with ample fuel the loop equals the loop at fuel equal to
the input length, on a concrete 2-element input. -/
theorem C10_cmp_terminates_witness :
    cmpLoop fsDup id 5 ["a", "b"] =
      find_duplicate_files_by_cmp fsDup id ["a", "b"] :=
  (C10_cmp_terminates fsDup id (fun x => List.Perm.refl x) ["a", "b"] 5
    (by decide)).1

/-- C8: for either strategy, every output group has more than one member
(length at least 2). -/
theorem C8_groups_at_least_two (fs : FS) (reorder : List FPath → List FPath)
    (hre : ∀ x, reorder x ⊆ x) (l : List FPath)
    (gs1 gs2 : List (List FPath))
    (h1 : find_duplicate_files fs l = .ok gs1)
    (h2 : find_duplicate_files_by_cmp fs reorder l = .ok gs2) :
    (∀ g ∈ gs1, 2 ≤ g.length) ∧ (∀ g ∈ gs2, 2 ≤ g.length) := by
  constructor
  · intro g hg
    exact (fdf_members h1 g hg).1
  · intro g hg
    rw [find_duplicate_files_by_cmp] at h2
    exact ((cmpLoop_groups hre _ _ _ h2).1 g hg).1

/-- C8 witness: on `fsDup` with input `["a", "b"]` both strategies output
the single group `["a", "b"]`, which has length 2. -/
theorem C8_groups_at_least_two_witness :
    (∀ g ∈ [[("a" : FPath), "b"]], 2 ≤ g.length) ∧
    (∀ g ∈ [[("a" : FPath), "b"]], 2 ≤ g.length) :=
  C8_groups_at_least_two fsDup id (fun _ _ hq => hq) ["a", "b"]
    [["a", "b"]] [["a", "b"]] rfl rfl

/-- C5: under either strategy the output groups are pairwise disjoint:
two groups at distinct positions share no path, so each path lies in at
most one group. -/
theorem C5_groups_disjoint (fs : FS) (reorder : List FPath → List FPath)
    (hre : ∀ x, reorder x ⊆ x) (l : List FPath)
    (gs1 gs2 : List (List FPath))
    (h1 : find_duplicate_files fs l = .ok gs1)
    (h2 : find_duplicate_files_by_cmp fs reorder l = .ok gs2) :
    List.Pairwise List.Disjoint gs1 ∧ List.Pairwise List.Disjoint gs2 := by
  refine ⟨fdf_disjoint h1, ?_⟩
  rw [find_duplicate_files_by_cmp] at h2
  exact (cmpLoop_groups hre _ _ _ h2).2

/-- C5 witness: concrete disjointness of the single-group outputs on
`fsDup`. -/
theorem C5_groups_disjoint_witness :
    List.Pairwise List.Disjoint [[("a" : FPath), "b"]] ∧
    List.Pairwise List.Disjoint [[("a" : FPath), "b"]] :=
  C5_groups_disjoint fsDup id (fun _ _ hq => hq) ["a", "b"]
    [["a", "b"]] [["a", "b"]] rfl rfl

theorem buildBucketsT_filter {α : Type} [DecidableEq α]
    (keyf : FPath → Option α) :
    ∀ (l : List FPath) (acc : List (α × List FPath)),
    buildBucketsT keyf l acc =
      buildBucketsT keyf (l.filter (fun p => (keyf p).isSome)) acc := by
  intro l
  induction l with
  | nil => intro acc; rfl
  | cons p rest ih =>
      intro acc
      rw [buildBucketsT]
      cases hk : keyf p with
      | none =>
          rw [List.filter_cons_of_neg (by simp [hk]), ih]
      | some k =>
          rw [List.filter_cons_of_pos (by simp [hk]), buildBucketsT]
          simp only [hk]
          exact ih _

/-- C7: a read failure during checksum computation silently excludes the
path: grouping an input list equals grouping only its readable paths (so
every other path is grouped exactly as it would be without the unreadable
ones), no unreadable path occurs in any group, and no error propagates
(`group_files_by_checksum` is a total function). -/
theorem C7_checksum_skips_unreadable (fs : FS) (l : List FPath) :
    group_files_by_checksum fs l =
      group_files_by_checksum fs (l.filter (fun p => (fs p).readOk)) ∧
    ∀ g ∈ group_files_by_checksum fs l, ∀ p ∈ g, (fs p).readOk := by
  constructor
  · rw [group_files_by_checksum, group_files_by_checksum,
      buildBucketsT_filter (get_file_checksum fs) l []]
    have hfil : l.filter (fun p => (get_file_checksum fs p).isSome) =
        l.filter (fun p => (fs p).readOk) := by
      apply List.filter_congr
      intro p _
      rw [get_file_checksum]
      by_cases hr : (fs p).readOk
      · simp [hr]
      · simp [hr]
    rw [hfil]
  · intro g hg p hp
    exact ((checksum_group_mem g hg).2 p hp).2.1

/-- C7 witness: on `fsMixed` the unreadable path `u` is skipped, the
readable duplicates `a`, `b` are still grouped, and `a`'s group members
are readable. -/
theorem C7_checksum_skips_unreadable_witness :
    group_files_by_checksum fsMixed ["u", "a", "b"] =
      group_files_by_checksum fsMixed
        (["u", "a", "b"].filter (fun p => (fsMixed p).readOk)) ∧
    (fsMixed "a").readOk := by
  obtain ⟨heq, hmem⟩ := C7_checksum_skips_unreadable fsMixed ["u", "a", "b"]
  refine ⟨heq, hmem ["a", "b"] ?_ "a" ?_⟩
  · exact List.mem_singleton.mpr rfl
  · exact List.mem_cons_self _ _

/-- C1 counterexample: the claim fails for the comparison strategy on
zero-byte files.  On `fsEmptyPair`, `scan_files` keeps the two zero-byte
regular files `e1`, `e2` (they are not symlinks), and
`find_duplicate_files_by_cmp` groups them (equal stat signatures), so a
zero-byte file appears in an output group.  Negation of the claim. -/
theorem C1_counterexample :
    ¬ (∀ (fs : FS) (walked : List FPath)
        (reorder : List FPath → List FPath) (gs : List (List FPath)),
        find_duplicate_files_by_cmp fs reorder (scan_files fs walked) =
          .ok gs →
        ∀ g ∈ gs, ∀ p ∈ g,
          (fs p).isLink = false ∧ (fs p).content.length ≠ 0) := by
  intro h
  have := h fsEmptyPair ["e1", "e2"] id [["e1", "e2"]] rfl ["e1", "e2"]
    (List.mem_singleton.mpr rfl) "e1" (List.mem_cons_self _ _)
  exact this.2 rfl

/-- C1 (amended): no path in any output group of either strategy applied
to `scan_files` output is a symbolic link; under the checksum strategy no
group member is a zero-byte file either.  (The comparison strategy can
output zero-byte files — see the counterexample — since it never consults
file sizes other than through `compare_files`, which treats two empty
regular files as equal.) -/
theorem C1_no_symlink (fs : FS) (walked : List FPath)
    (reorder : List FPath → List FPath) (hre : ∀ x, reorder x ⊆ x)
    (gs1 gs2 : List (List FPath))
    (h1 : find_duplicate_files fs (scan_files fs walked) = .ok gs1)
    (h2 : find_duplicate_files_by_cmp fs reorder (scan_files fs walked) =
      .ok gs2) :
    (∀ g ∈ gs1, ∀ p ∈ g,
      (fs p).isLink = false ∧ (fs p).content.length ≠ 0) ∧
    (∀ g ∈ gs2, ∀ p ∈ g, (fs p).isLink = false) := by
  have hscan : ∀ p ∈ scan_files fs walked, (fs p).isLink = false := by
    intro p hp
    rw [scan_files] at hp
    have := (List.mem_filter.mp hp).2
    simpa using this
  constructor
  · intro g hg p hp
    obtain ⟨-, hmem⟩ := fdf_members h1 g hg
    obtain ⟨hpl, -, hnz, -⟩ := hmem p hp
    exact ⟨hscan p hpl, hnz⟩
  · intro g hg p hp
    rw [find_duplicate_files_by_cmp] at h2
    exact hscan p (((cmpLoop_groups hre _ _ _ h2).1 g hg).2 p hp)

/-- C1 witness: on `fsDup` with walked list `["a", "b"]` both strategies
output the group `["a", "b"]`; its members are non-symlinks and (for the
checksum strategy) non-empty. -/
theorem C1_no_symlink_witness :
    (∀ g ∈ [[("a" : FPath), "b"]], ∀ p ∈ g,
      (fsDup p).isLink = false ∧ (fsDup p).content.length ≠ 0) ∧
    (∀ g ∈ [[("a" : FPath), "b"]], ∀ p ∈ g, (fsDup p).isLink = false) :=
  C1_no_symlink fsDup ["a", "b"] id (fun _ _ hq => hq) [["a", "b"]]
    [["a", "b"]] rfl rfl

theorem compare_files_eq (fs : FS) (f1 f2 : FPath) (shallow : Bool)
    (hs1 : (fs f1).statOk) (hs2 : (fs f2).statOk) :
    compare_files fs f1 f2 shallow = .ok (
      if S_IFMT (fs f1).mode ≠ S_IFREG ∨ S_IFMT (fs f2).mode ≠ S_IFREG then
        false
      else if shallow = true ∧
          (S_IFMT (fs f1).mode, (fs f1).content.length, (fs f1).mtime) =
          (S_IFMT (fs f2).mode, (fs f2).content.length, (fs f2).mtime) then
        true
      else if (fs f1).content.length ≠ (fs f2).content.length then false
      else do_compare fs f1 f2) := by
  rw [compare_files, statSig, statSig, if_pos hs1, if_pos hs2]
  simp only [Bind.bind, Except.bind, Pure.pure, Except.pure]
  split_ifs <;> rfl

/-- C3 counterexample: the claim omits read failures.  On `fsUnreadable`
the regular files `u` and `v` have identical contents and both stats
succeed, but reading `u` fails, so the chunked comparison's
`except OSError` clause makes `compare_files(u, v, shallow=False)` return
False although the contents are identical.  Negation of the claim. -/
theorem C3_counterexample :
    ¬ (∀ (fs : FS) (f1 f2 : FPath),
        S_IFMT (fs f1).mode = S_IFREG → S_IFMT (fs f2).mode = S_IFREG →
        (fs f1).statOk → (fs f2).statOk →
        (compare_files fs f1 f2 false = .ok true ↔
          (fs f1).content = (fs f2).content)) := by
  intro h
  have htrue := (h fsUnreadable "u" "v" rfl rfl rfl rfl).mpr rfl
  have hfalse : compare_files fsUnreadable "u" "v" false = .ok false := rfl
  rw [hfalse] at htrue
  injection htrue with hb
  cases hb

/-- C3 (amended): for regular files whose stat queries succeed and whose
reads succeed, `compare_files` with `shallow=False` returns True exactly
when the byte contents are identical; the decision is made by the
lockstep 8 KiB chunk loop (`chunkCompare`). -/
theorem C3_deep_compare (fs : FS) (f1 f2 : FPath)
    (ht1 : S_IFMT (fs f1).mode = S_IFREG)
    (ht2 : S_IFMT (fs f2).mode = S_IFREG)
    (hs1 : (fs f1).statOk) (hs2 : (fs f2).statOk)
    (hr1 : (fs f1).readOk) (hr2 : (fs f2).readOk) :
    compare_files fs f1 f2 false = .ok true ↔
      (fs f1).content = (fs f2).content := by
  rw [compare_files_eq fs f1 f2 false hs1 hs2]
  rw [if_neg (by simp [ht1, ht2])]
  rw [if_neg (by simp)]
  by_cases hlen : (fs f1).content.length ≠ (fs f2).content.length
  · rw [if_pos hlen]
    constructor
    · intro h; injection h with h; cases h
    · intro h; exact absurd (congrArg List.length h) hlen
  · rw [if_neg hlen]
    rw [do_compare, if_pos (by simp [hr1, hr2])]
    constructor
    · intro h
      injection h with h
      exact (chunkCompare_iff _ _).mp h
    · intro h
      rw [(chunkCompare_iff _ _).mpr h]

/-- C3 witness: on `fsDup` the readable regular duplicates `a`, `b`
deep-compare equal. -/
theorem C3_deep_compare_witness :
    compare_files fsDup "a" "b" false = .ok true :=
  (C3_deep_compare fsDup "a" "b" rfl rfl rfl rfl rfl rfl).mpr rfl

/-- C6: for two regular files with equal size and equal mtime but
different content (stats succeeding), `shallow=True` short-circuits on the
equal stat signatures and reports "equal" (the documented false
positive), while `shallow=False` reads the bytes and reports "not
equal". -/
theorem C6_shallow_false_positive (fs : FS) (f1 f2 : FPath)
    (ht1 : S_IFMT (fs f1).mode = S_IFREG)
    (ht2 : S_IFMT (fs f2).mode = S_IFREG)
    (hs1 : (fs f1).statOk) (hs2 : (fs f2).statOk)
    (hsize : (fs f1).content.length = (fs f2).content.length)
    (hmtime : (fs f1).mtime = (fs f2).mtime)
    (hcne : (fs f1).content ≠ (fs f2).content) :
    compare_files fs f1 f2 true = .ok true ∧
    compare_files fs f1 f2 false = .ok false := by
  constructor
  · rw [compare_files_eq fs f1 f2 true hs1 hs2]
    rw [if_neg (by simp [ht1, ht2])]
    rw [if_pos (by rw [ht1, ht2, hsize, hmtime]; exact ⟨rfl, rfl⟩)]
  · rw [compare_files_eq fs f1 f2 false hs1 hs2]
    rw [if_neg (by simp [ht1, ht2])]
    rw [if_neg (by simp)]
    rw [if_neg (by simp [hsize])]
    rw [do_compare]
    by_cases hread : (fs f1).readOk && (fs f2).readOk
    · rw [if_pos hread]
      have hfalse : chunkCompare (fs f1).content (fs f2).content = false := by
        rw [← Bool.not_eq_true]
        intro h
        exact hcne ((chunkCompare_iff _ _).mp h)
      rw [hfalse]
    · rw [if_neg hread]

/-- C6 witness: `s1`, `s2` under `fsShallowPair` exhibit the shallow false
positive and the deep "not equal". -/
theorem C6_shallow_false_positive_witness :
    compare_files fsShallowPair "s1" "s2" true = .ok true ∧
    compare_files fsShallowPair "s1" "s2" false = .ok false :=
  C6_shallow_false_positive fsShallowPair "s1" "s2" rfl rfl rfl rfl rfl rfl
    (by decide)

/-- C9: if either stat query fails, `compare_files` propagates the
`OSError` (it does not return "not equal"); once both stats succeed it
always returns a Boolean; and an I/O failure during the chunked byte
comparison itself (reached with `shallow=False` on same-size regular
files) is converted to the "not equal" result. -/
theorem C9_stat_error_propagates (fs : FS) (f1 f2 : FPath) (shallow : Bool) :
    ((¬(fs f1).statOk ∨ ¬(fs f2).statOk) →
      compare_files fs f1 f2 shallow = .error ()) ∧
    ((fs f1).statOk → (fs f2).statOk →
      ∃ b, compare_files fs f1 f2 shallow = .ok b) ∧
    ((fs f1).statOk → (fs f2).statOk →
      S_IFMT (fs f1).mode = S_IFREG → S_IFMT (fs f2).mode = S_IFREG →
      (fs f1).content.length = (fs f2).content.length →
      (¬(fs f1).readOk ∨ ¬(fs f2).readOk) →
      compare_files fs f1 f2 false = .ok false) := by
  refine ⟨?_, ?_, ?_⟩
  · intro h
    rw [compare_files]
    by_cases h1 : (fs f1).statOk
    · have h2 : ¬(fs f2).statOk := by tauto
      rw [statSig, statSig, if_pos h1, if_neg h2]
      simp [Bind.bind, Except.bind]
    · rw [statSig, if_neg h1]
      simp [Bind.bind, Except.bind]
  · intro hs1 hs2
    exact ⟨_, compare_files_eq fs f1 f2 shallow hs1 hs2⟩
  · intro hs1 hs2 ht1 ht2 hsize hread
    rw [compare_files_eq fs f1 f2 false hs1 hs2]
    rw [if_neg (by simp [ht1, ht2])]
    rw [if_neg (by simp)]
    rw [if_neg (by simp [hsize])]
    rw [do_compare, if_neg (by rcases hread with h | h <;> simp [h])]

/-- C9 witness: the stat failure on `x` under `fsStatFail` propagates as
an error. -/
theorem C9_stat_error_propagates_witness :
    compare_files fsStatFail "x" "y" true = .error () :=
  (C9_stat_error_propagates fsStatFail "x" "y" true).1 (Or.inl (by decide))

set_option maxRecDepth 16384 in
/-- C4 counterexample: the comparison strategy's pool is rebuilt with
Python `set` subtraction, whose iteration order may differ between runs
(string hashing is per-process randomised).  Both `id` and `List.reverse`
are permutations (legitimate set orders), yet they produce groups with
different MEMBERSHIP, not merely different ordering: `{A, B}` versus
`{C, B}`.  Negation of "groups contain the same sets of paths". -/
theorem C4_counterexample :
    (∀ x : List FPath, (List.reverse x).Perm x) ∧
    find_duplicate_files_by_cmp fsOrderDep id ["X", "A", "B", "C"] =
      .ok [["A", "B"]] ∧
    find_duplicate_files_by_cmp fsOrderDep List.reverse
      ["X", "A", "B", "C"] = .ok [["C", "B"]] ∧
    ¬ (∀ g1 ∈ [[("A" : FPath), "B"]], ∃ g2 ∈ [[("C" : FPath), "B"]],
        g1 ⊆ g2 ∧ g2 ⊆ g1) :=
  ⟨fun x => x.reverse_perm, by rfl, by rfl, by decide⟩

/-- C4 (amended): both strategies are deterministic for a fixed pool
iteration order: their output is a function of each path's stat success,
read success, content, mode bits and mtime alone (in particular it does
not change between two runs on an unchanged filesystem with the same
`reorder`).  Group membership under the comparison strategy can change
when the set iteration order changes (see the counterexample). -/
theorem C4_deterministic (fs1 fs2 : FS)
    (reorder : List FPath → List FPath) (l : List FPath)
    (hstat : ∀ p, (fs1 p).statOk = (fs2 p).statOk)
    (hread : ∀ p, (fs1 p).readOk = (fs2 p).readOk)
    (hcont : ∀ p, (fs1 p).content = (fs2 p).content)
    (hmode : ∀ p, (fs1 p).mode = (fs2 p).mode)
    (hmtime : ∀ p, (fs1 p).mtime = (fs2 p).mtime) :
    find_duplicate_files fs1 l = find_duplicate_files fs2 l ∧
    find_duplicate_files_by_cmp fs1 reorder l =
      find_duplicate_files_by_cmp fs2 reorder l := by
  have hsk : sizeKey fs1 = sizeKey fs2 := by
    funext p
    simp only [sizeKey, getsize, hstat p, hcont p]
  have hck : get_file_checksum fs1 = get_file_checksum fs2 := by
    funext p
    simp only [get_file_checksum, hread p, hcont p]
  have hgfbs : group_files_by_size fs1 = group_files_by_size fs2 := by
    funext l'
    rw [group_files_by_size, group_files_by_size, hsk]
  have hgfbc : group_files_by_checksum fs1 = group_files_by_checksum fs2 := by
    funext l'
    rw [group_files_by_checksum, group_files_by_checksum, hck]
  have hss : statSig fs1 = statSig fs2 := by
    funext p
    simp only [statSig, hstat p, hcont p, hmode p, hmtime p]
  have hdc : do_compare fs1 = do_compare fs2 := by
    funext x y
    simp only [do_compare, hread x, hread y, hcont x, hcont y]
  have hcf : ∀ (a b : FPath) (s : Bool),
      compare_files fs1 a b s = compare_files fs2 a b s := by
    intro a b s
    rw [compare_files, compare_files, hss, hdc]
  have hcm : ∀ (current : FPath) (l' : List FPath),
      collectMatches fs1 current l' = collectMatches fs2 current l' := by
    intro current l'
    induction l' with
    | nil => rw [collectMatches, collectMatches]
    | cons f rest ih =>
        rw [collectMatches, collectMatches]
        simp only [hcf, ih]
  have hloop : ∀ (fuel : Nat) (l' : List FPath),
      cmpLoop fs1 reorder fuel l' = cmpLoop fs2 reorder fuel l' := by
    intro fuel
    induction fuel with
    | zero =>
        intro l'
        cases l' with
        | nil => rw [cmpLoop, cmpLoop]
        | cons c rest => rw [cmpLoop, cmpLoop]
    | succ fuel ih =>
        intro l'
        cases l' with
        | nil => rw [cmpLoop, cmpLoop]
        | cons current rest =>
            rw [cmpLoop]
            conv_rhs => rw [cmpLoop]
            simp only [hcm, ih]
  constructor
  · rw [find_duplicate_files, find_duplicate_files, hgfbs, hgfbc]
  · rw [find_duplicate_files_by_cmp, find_duplicate_files_by_cmp, hloop]

/-- C4 witness: `fsDup` and `fsDupLinked` agree on every consulted
attribute, so both strategies coincide on them. -/
theorem C4_deterministic_witness :
    find_duplicate_files fsDup ["a", "b"] =
      find_duplicate_files fsDupLinked ["a", "b"] ∧
    find_duplicate_files_by_cmp fsDup id ["a", "b"] =
      find_duplicate_files_by_cmp fsDupLinked id ["a", "b"] :=
  C4_deterministic fsDup fsDupLinked id ["a", "b"]
    (fun p => by rw [fsDupLinked]) (fun p => by rw [fsDupLinked])
    (fun p => by rw [fsDupLinked]) (fun p => by rw [fsDupLinked])
    (fun p => by rw [fsDupLinked])
